import Mathlib

set_option maxRecDepth 100000

/-!
Verification of the ticker-extraction / validation / aggregation / ranking
pipeline of the Reddit stock crawler (reddit_stock_crawler.py, demo_crawler.py).

The embedding models the ASCII fragment of the Python code: texts are Lean
strings, Python sets of strings are Finset String, and collections.Counter is
an insertion-ordered association list (Python dicts preserve insertion order).

Regular expressions.  The crawler matches candidates with the pattern
  \b\$?([A-Z]{1,5})\b            (ticker_pattern, line 53 / demo line 19)
and sigil-prefixed candidates with
  \$([A-Z]{1,5})\b               (dollar_pattern, line 125),
both applied to text.upper() and collapsed with set(...).  We embed the token
sets these findall calls produce:

* For the first pattern, a match needs a word boundary on both sides of the
  captured group.  A word character is [A-Za-z0-9_].  Hence the captured token
  must be an entire maximal run of word characters (a shorter prefix of a run
  would sit next to another word character, killing the trailing boundary, and
  greedy backtracking over {1,5} cannot repair that), the run must consist of
  uppercase letters only, and its length must be between 1 and 5.  The
  optional sigil never changes the captured set: a dollar sign is not a word
  character, so the letters after it start at a word boundary anyway.

* For the second pattern, a token is a maximal run of uppercase letters that
  directly follows a dollar sign, has length between 1 and 5, and is followed
  by a non-word character or the end of the text (the trailing boundary; if
  the run is longer than 5 or is followed by a digit or underscore, no amount
  of backtracking gives a valid match, because every shorter prefix of the run
  is followed by a letter).

Both scanners below are written structurally (no well-founded recursion) so
that every definition evaluates by kernel reduction inside decide.
-/

/-- Uppercase ASCII letter, the character class [A-Z] of the patterns. -/
def isUpperAZ (c : Char) : Bool := 'A' ≤ c && c ≤ 'Z'

/-- Word character for the boundary semantics of the backslash-b assertion in
the patterns (ASCII fragment): [A-Za-z0-9_]. -/
def isWordChar (c : Char) : Bool := c.isAlpha || c.isDigit || c == '_'

/-- Trailing word-boundary test: holds at the end of the text or in front of a
non-word character. -/
def boundaryOk : List Char → Bool
  | [] => true
  | c :: _ => !(isWordChar c)

/-- Scanner collecting the maximal runs of word characters of a text; cur is
the (possibly empty) run read so far, kept in order. -/
def runsAux : List Char → List Char → List (List Char)
  | [], cur => if cur = [] then [] else [cur]
  | c :: cs, cur =>
    if isWordChar c then runsAux cs (cur ++ [c])
    else if cur = [] then runsAux cs [] else cur :: runsAux cs []

/-- Maximal runs of word characters of a text, in textual order. -/
def maximalWordRuns (s : List Char) : List (List Char) := runsAux s []

/-- Token multiset of re.findall of the pattern with word boundaries on both
sides (ticker_pattern): the maximal word runs that are made of 1 to 5
uppercase letters.  See the header comment for the derivation. -/
def tickerTokens (s : List Char) : List (List Char) :=
  (maximalWordRuns s).filter
    (fun r => r.all isUpperAZ && decide (1 ≤ r.length) && decide (r.length ≤ 5))

/-- Token multiset of re.findall of the dollar pattern (line 125): for every
dollar sign in the text, the run of uppercase letters directly after it, kept
when it has length 1 to 5 and ends at a word boundary.  The regex engine
resumes scanning after a successful match; resuming right after the dollar
sign instead is equivalent, because the consumed letters contain no dollar
sign, and it keeps the recursion structural. -/
def dollarTokens : List Char → List (List Char)
  | [] => []
  | c :: cs =>
    if c == '$' then
      let t := cs.takeWhile isUpperAZ
      if decide (1 ≤ t.length) && decide (t.length ≤ 5)
          && boundaryOk (cs.dropWhile isUpperAZ) then
        t :: dollarTokens cs
      else dollarTokens cs
    else dollarTokens cs

/-- Python text.upper() on the ASCII fragment, as a character list. -/
def pyUpper (s : String) : List Char := s.data.map Char.toUpper

/-- Python str.isdigit on the ASCII fragment: nonempty and all digits. -/
def pyIsdigit (s : String) : Bool := !(s.data.isEmpty) && s.data.all Char.isDigit

/-- Tokens of ticker_pattern.findall(text.upper()), as strings
(reddit_stock_crawler.py line 129, demo_crawler.py line 66). -/
def tickerStrings (text : String) : List String :=
  (tickerTokens (pyUpper text)).map String.mk

/-- Tokens of dollar_pattern.findall(text.upper()), as strings
(reddit_stock_crawler.py line 126). -/
def dollarStrings (text : String) : List String :=
  (dollarTokens (pyUpper text)).map String.mk

/-- RedditStockCrawler.extract_tickers (lines 119-148): empty text gives the
empty set; otherwise every ticker-shaped token is kept when it is in the
whitelist of valid tickers, or when it also occurs with a dollar prefix in the
same text and has length at least 2; tokens longer than 5 or purely numeric
are skipped first (line 136). -/
def extract_tickers (valid_tickers : Finset String) (text : String) :
    Finset String :=
  if text = "" then ∅
  else
    ((tickerStrings text).filter (fun m =>
      !(decide (5 < m.length) || pyIsdigit m) &&
      (decide (m ∈ valid_tickers) ||
        (decide (m ∈ dollarStrings text) && decide (2 ≤ m.length))))).toFinset

/-- DemoRedditStockCrawler.exclude_words (demo_crawler.py lines 22-34). -/
def exclude_words : Finset String :=
  (["THE", "AND", "FOR", "ARE", "BUT", "NOT", "YOU", "ALL", "CAN", "HER",
    "WAS", "ONE", "OUR", "OUT", "DAY", "GET", "HAS", "HIM", "HIS", "HOW",
    "ITS", "NEW", "NOW", "OLD", "SEE", "TWO", "WHO", "BOY", "DID", "ILL",
    "LET", "OWN", "SAY", "SHE", "TOO", "USE", "WAY", "WHY", "YOU", "USD",
    "CEO", "CFO", "CTO", "IPO", "SEC", "FDA", "FBI", "IRS", "LLC", "INC",
    "ETF", "ATH", "ATL", "YTD", "EOD", "AH", "PM", "DD", "TA", "FA",
    "YOLO", "HODL", "FOMO", "FUD", "WSB", "LOL", "OMG", "WTF", "TBH",
    "IMO", "IMHO", "TLDR", "ELI", "AMA", "TIL", "PSA", "EDIT", "UPDATE",
    "TO", "IS", "IT", "AT", "ON", "IN", "BY", "UP", "AS", "OR", "IF",
    "MY", "WE", "ME", "HE", "BE", "DO", "GO", "SO", "NO", "OF", "AN",
    "A", "I", "US", "VS", "AM", "PM", "UK", "CA", "EU", "NY", "LA"]).toFinset

/-- DemoRedditStockCrawler.extract_tickers (demo_crawler.py lines 60-76):
ticker-shaped tokens that are not excluded words, have length 1 to 5, and are
not purely numeric. -/
def demo_extract_tickers (text : String) : Finset String :=
  if text = "" then ∅
  else
    ((tickerStrings text).filter (fun m =>
      decide (m ∉ exclude_words) && decide (1 ≤ m.length) &&
      decide (m.length ≤ 5) && !(pyIsdigit m))).toFinset

/-!
The SEC ticker loader (reddit_stock_crawler.py lines 58-117).

Per raw entry (the value of the ticker field of one JSON item), the code
upper-cases it, skips it when empty, computes the base form with
ticker.split('-')[0].split('.')[0] (the prefix before the first dash, then the
prefix of that before the first dot, which is the prefix before the first of
either separator), adds the base form when it is nonempty and at most 5
characters long, and additionally adds the full upper-cased entry when it
contains a dash or a dot.  The same per-entry logic runs in the local-file
branch (lines 66-76) and the web branch (lines 93-102).

Error handling: a missing local file falls through to the web fetch; any other
failure (unreadable or malformed local data, web fetch or parse failure) is
caught by the outer handler, which returns the fixed built-in fallback set
(lines 106-117) instead of raising.  The outcome of each I/O tier is passed in
as data.
-/

/-- Base form of a raw ticker: ticker.split('-')[0].split('.')[0], the prefix
before the first dash, then the prefix of that before the first dot
(lines 71 and 98). -/
def secBase (ticker : List Char) : List Char :=
  (ticker.takeWhile (fun c => !(c == '-'))).takeWhile (fun c => !(c == '.'))

/-- Per-entry normalization and insertion of the SEC loader (lines 67-76 and
95-102): upper-case, skip empty, add the base form when nonempty and at most
5 characters, add the full form when it contains a dash or a dot. -/
def secInsertEntry (acc : Finset String) (e : String) : Finset String :=
  let ticker := pyUpper e
  if ticker = [] then acc
  else
    let base := secBase ticker
    let acc1 :=
      if base ≠ [] ∧ base.length ≤ 5 then insert (String.mk base) acc else acc
    if '-' ∈ ticker ∨ '.' ∈ ticker then insert (String.mk ticker) acc1
    else acc1

/-- The SEC loader parse, folded over all raw ticker entries starting from the
empty set. -/
def load_tickers_from (entries : List String) : Finset String :=
  entries.foldl secInsertEntry ∅

/-- Fallback set of well-known tickers (lines 110-117), returned when the
authoritative data cannot be loaded. -/
def fallback_tickers : Finset String :=
  (["AAPL", "MSFT", "GOOGL", "GOOG", "AMZN", "TSLA", "META", "NVDA",
    "NFLX", "CRM", "ORCL", "ADBE", "UBER", "ABNB", "COIN", "RBLX",
    "GME", "AMC", "BB", "NOK", "PLTR", "WISH", "CLOV", "MVIS",
    "SPY", "QQQ", "IWM", "VTI", "VOO", "SQQQ", "TQQQ", "UVXY",
    "AMD", "INTEL", "MU", "QCOM", "AMAT", "LRCX", "KLAC", "MCHP",
    "BRK", "BRKA", "BRKB"]).toFinset

/-- Outcome of reading the local sec_tickers.json file: parsed entries, file
not found, or any other failure (unreadable or malformed data). -/
inductive LocalData
  | found (entries : List String)
  | notFound
  | unreadable
deriving DecidableEq

/-- Outcome of fetching the SEC data from the web: parsed entries or failure
(transport error, bad status, or malformed payload). -/
inductive WebData
  | ok (entries : List String)
  | failed
deriving DecidableEq

/-- RedditStockCrawler loading of SEC tickers (lines 58-117) with the I/O tier
outcomes passed in as data: local data is used when readable, a missing file
falls through to the web fetch, and every other failure yields the built-in
fallback set; the function is total, so no error reaches the caller. -/
def load_sec_tickers (loc : LocalData) (web : WebData) : Finset String :=
  match loc with
  | .found entries => load_tickers_from entries
  | .unreadable => fallback_tickers
  | .notFound =>
    match web with
    | .ok entries => load_tickers_from entries
    | .failed => fallback_tickers

/-!
Counting and ranking.  collections.Counter is a dict subclass: iteration and
insertion order is the order in which keys first appeared, adding to an
existing key keeps its position.  most_common(n), for an explicit n, delegates
to heapq.nlargest(n, items, key=count): the n largest entries by count, with
equal counts keeping insertion order (nlargest is documented equivalent to the
stable sorted(items, key=count, reverse=True)[:n] for nonnegative n), and the
empty list for every n below zero (the index decoration range(0, -n, -1) of
nlargest is empty then, so it consumes no items).  We embed a Counter as an
association list in insertion order with unique keys.
-/

/-- Counter lookup with default 0 (Counter returns 0 for missing keys). -/
def counterGet (c : List (String × Nat)) (k : String) : Nat :=
  match c with
  | [] => 0
  | (k₀, v₀) :: rest => if k₀ = k then v₀ else counterGet rest k

/-- Adding v to key k of a Counter: an existing key keeps its position, a new
key is appended at the end (dict insertion-order semantics). -/
def counterIncr (c : List (String × Nat)) (k : String) (v : Nat) :
    List (String × Nat) :=
  match c with
  | [] => [(k, v)]
  | (k₀, v₀) :: rest =>
    if k₀ = k then (k₀, v₀ + v) :: rest else (k₀, v₀) :: counterIncr rest k v

/-- Counter.update with another Counter (line 193): the counts of b are added
into a, key by key in the order of b. -/
def counterUpdate (a b : List (String × Nat)) : List (String × Nat) :=
  b.foldl (fun acc kv => counterIncr acc kv.1 kv.2) a

/-- Stable insertion step for sorting by count descending: x moves left past
every entry with a strictly smaller count and stops behind entries with an
equal or larger one. -/
def insertDesc (x : String × Nat) :
    List (String × Nat) → List (String × Nat)
  | [] => [x]
  | y :: ys => if y.2 > x.2 then y :: insertDesc x ys else x :: y :: ys

/-- Stable sort by count descending, the semantics of Python
sorted(key=count, reverse=True): equal counts keep their original (insertion)
order. -/
def sortDesc : List (String × Nat) → List (String × Nat)
  | [] => []
  | x :: xs => insertDesc x (sortDesc xs)

/-- Counter.most_common(n): heapq.nlargest semantics.  A negative n yields the
empty list (nlargest decorates the items with range(0, -n, -1), which is empty
then); otherwise the first n entries of the stable descending sort by count,
ties keeping insertion order. -/
def most_common (c : List (String × Nat)) (n : Int) : List (String × Nat) :=
  if n < 0 then [] else (sortDesc c).take n.toNat

/-- RedditStockCrawler.get_top_stocks ranking step (line 197; identically
DemoRedditStockCrawler.get_top_stocks line 107): the accumulated total counter
is ranked with most_common(num_stocks).  The crawling that fills the counter
is I/O and enters here as the counter argument; no validation of num_stocks is
performed. -/
def get_top_stocks (total_counter : List (String × Nat)) (num_stocks : Int) :
    List (String × Nat) :=
  most_common total_counter num_stocks

/-- Sorted element list of a finite set of strings, used as the model of
Python set iteration.  Defined through insertionSort so that it evaluates by
kernel reduction; well defined on the quotient because two sorted permutations
of each other are equal. -/
def finsetElems (s : Finset String) : List String :=
  Quotient.liftOn s.val (fun l => l.insertionSort (· ≤ ·))
    (fun a b h =>
      List.eq_of_perm_of_sorted
        ((List.perm_insertionSort _ a).trans
          (h.trans (List.perm_insertionSort _ b).symm))
        (List.sorted_insertionSort _ a) (List.sorted_insertionSort _ b))

/-- Per-post accumulation of RedditStockCrawler.crawl_subreddit (lines
159-172): the ticker sets of the title and of the selftext are merged into one
set (line 161-162) and each member adds 1; then each of the first 10 comments
contributes 1 per member of its own ticker set.  Python iterates a set in
unspecified order; the model iterates in sorted order, which leaves every
count unchanged and only fixes the insertion order of new keys. -/
def processPost (valid : Finset String) (counter : List (String × Nat))
    (title selftext : String) (comments : List String) :
    List (String × Nat) :=
  let tickers := extract_tickers valid title ∪ extract_tickers valid selftext
  let afterPost :=
    (finsetElems tickers).foldl (fun acc t => counterIncr acc t 1) counter
  (comments.take 10).foldl (fun acc body =>
    (finsetElems (extract_tickers valid body)).foldl
      (fun acc t => counterIncr acc t 1) acc) afterPost

/-!
Lemmas about the scanners.
-/

theorem isWordChar_of_isUpperAZ {c : Char} (h : isUpperAZ c = true) :
    isWordChar c = true := by
  simp only [isUpperAZ, Bool.and_eq_true, decide_eq_true_eq] at h
  simp only [isWordChar, Char.isAlpha, Char.isUpper, Bool.or_eq_true,
    Bool.and_eq_true, decide_eq_true_eq]
  exact Or.inl (Or.inl (Or.inl ⟨h.1, h.2⟩))

theorem not_dollar_of_isWordChar {c : Char} (h : isWordChar c = true) :
    (c == '$') = false := by
  rcases hc : c == '$' with _ | _
  · rfl
  · rw [beq_iff_eq] at hc; subst hc; simp [isWordChar, Char.isAlpha] at h

/-- The scanner in the middle of a run: the pending run is extended by the
longest word prefix of the remaining text and emitted, and scanning restarts
after it. -/
theorem runsAux_mid (s : List Char) : ∀ cur : List Char, cur ≠ [] →
    runsAux s cur =
      (cur ++ s.takeWhile isWordChar) :: runsAux (s.dropWhile isWordChar) [] := by
  induction s with
  | nil => intro cur hcur; simp [runsAux, hcur]
  | cons c cs ih =>
    intro cur hcur
    by_cases hw : isWordChar c = true
    · rw [runsAux, if_pos hw, ih (cur ++ [c]) (by simp),
        List.takeWhile_cons_of_pos hw, List.dropWhile_cons_of_pos hw]
      simp
    · rw [runsAux, if_neg hw, if_neg hcur,
        List.takeWhile_cons_of_neg (by simpa using hw),
        List.dropWhile_cons_of_neg (by simpa using hw)]
      simp [runsAux, hw]

theorem maximalWordRuns_nil : maximalWordRuns [] = [] := rfl

theorem maximalWordRuns_cons_word {c : Char} (cs : List Char)
    (hw : isWordChar c = true) :
    maximalWordRuns (c :: cs) =
      (c :: cs.takeWhile isWordChar) ::
        maximalWordRuns (cs.dropWhile isWordChar) := by
  show runsAux (c :: cs) [] = _
  rw [runsAux, if_pos hw, List.nil_append, runsAux_mid cs [c] (by simp)]
  rfl

theorem maximalWordRuns_cons_nonword {c : Char} (cs : List Char)
    (hw : ¬ isWordChar c = true) :
    maximalWordRuns (c :: cs) = maximalWordRuns cs := by
  show runsAux (c :: cs) [] = runsAux cs []
  rw [runsAux, if_neg hw, if_pos rfl]

/-- A text made of word characters only is a single maximal run. -/
theorem maximalWordRuns_all_word {s : List Char} (hne : s ≠ [])
    (hall : s.all isWordChar = true) : maximalWordRuns s = [s] := by
  match s, hne with
  | c :: cs, _ =>
    simp only [List.all_cons, Bool.and_eq_true] at hall
    rw [maximalWordRuns_cons_word cs hall.1,
      List.takeWhile_eq_self_iff.mpr (by simpa [List.all_eq_true] using hall.2),
      List.dropWhile_eq_nil_iff.mpr (by simpa [List.all_eq_true] using hall.2),
      maximalWordRuns_nil]

/-- Tokens of the dollar scanner are runs of 1 to 5 uppercase letters. -/
theorem dollarTokens_shape : ∀ s r, r ∈ dollarTokens s →
    r.all isUpperAZ = true ∧ 1 ≤ r.length ∧ r.length ≤ 5 := by
  intro s
  induction s with
  | nil => intro r hr; simp [dollarTokens] at hr
  | cons c cs ih =>
    intro r hr
    rw [dollarTokens] at hr
    by_cases hc : (c == '$') = true
    · rw [if_pos hc] at hr
      by_cases hm :
          (decide (1 ≤ (cs.takeWhile isUpperAZ).length) &&
            decide ((cs.takeWhile isUpperAZ).length ≤ 5) &&
            boundaryOk (cs.dropWhile isUpperAZ)) = true
      · rw [if_pos hm] at hr
        rcases List.mem_cons.mp hr with hr | hr
        · subst hr
          simp only [Bool.and_eq_true, decide_eq_true_eq] at hm
          exact ⟨List.all_eq_true.mpr (fun x hx => List.mem_takeWhile_imp hx),
            hm.1.1, hm.1.2⟩
        · exact ih r hr
      · rw [if_neg hm] at hr; exact ih r hr
    · rw [if_neg hc] at hr; exact ih r hr

/-- The dollar scanner ignores a leading stretch of word characters (none of
them is a dollar sign). -/
theorem dollarTokens_dropWhile_word (s : List Char) :
    dollarTokens s = dollarTokens (s.dropWhile isWordChar) := by
  induction s with
  | nil => rfl
  | cons c cs ih =>
    by_cases hw : isWordChar c = true
    · rw [List.dropWhile_cons_of_pos hw, ← ih, dollarTokens,
        not_dollar_of_isWordChar hw]
      simp
    · rw [List.dropWhile_cons_of_neg (by simpa using hw)]

/-- When the trailing boundary after the letter run holds, the longest word
prefix and the longest uppercase-letter prefix agree. -/
theorem takeWhile_word_eq_upper : ∀ cs : List Char,
    boundaryOk (cs.dropWhile isUpperAZ) = true →
    cs.takeWhile isWordChar = cs.takeWhile isUpperAZ ∧
      cs.dropWhile isWordChar = cs.dropWhile isUpperAZ := by
  intro cs
  induction cs with
  | nil => intro _; exact ⟨rfl, rfl⟩
  | cons c cs ih =>
    intro hb
    by_cases hu : isUpperAZ c = true
    · rw [List.dropWhile_cons_of_pos hu] at hb
      have := ih hb
      rw [List.takeWhile_cons_of_pos hu, List.takeWhile_cons_of_pos
        (isWordChar_of_isUpperAZ hu), List.dropWhile_cons_of_pos hu,
        List.dropWhile_cons_of_pos (isWordChar_of_isUpperAZ hu), this.1, this.2]
      exact ⟨rfl, rfl⟩
    · rw [List.dropWhile_cons_of_neg (by simpa using hu)] at hb
      simp only [boundaryOk] at hb
      have hw : ¬ isWordChar c = true := by simpa using hb
      rw [List.takeWhile_cons_of_neg (by simpa using hw),
        List.takeWhile_cons_of_neg (by simpa using hu),
        List.dropWhile_cons_of_neg (by simpa using hw),
        List.dropWhile_cons_of_neg (by simpa using hu)]
      exact ⟨rfl, rfl⟩

/-- Every token of the dollar scanner is a maximal word run of the text: the
letters after the dollar sign start right after a non-word character and end
at a word boundary. -/
theorem dollarTokens_subset_runs :
    ∀ (n : Nat) (s : List Char), s.length ≤ n →
      ∀ r ∈ dollarTokens s, r ∈ maximalWordRuns s := by
  intro n
  induction n with
  | zero =>
    intro s hs r hr
    have : s = [] := List.length_eq_zero.mp (Nat.le_zero.mp hs)
    subst this; simp [dollarTokens] at hr
  | succ n ih =>
    intro s hs r hr
    match s with
    | [] => simp [dollarTokens] at hr
    | c :: cs =>
      simp only [List.length_cons, Nat.succ_le_succ_iff] at hs
      by_cases hw : isWordChar c = true
      · rw [dollarTokens, not_dollar_of_isWordChar hw] at hr
        simp only [Bool.false_eq_true, if_false] at hr
        rw [dollarTokens_dropWhile_word cs] at hr
        have hmem := ih (cs.dropWhile isWordChar)
          (le_trans (List.dropWhile_sublist _).length_le hs) r hr
        rw [maximalWordRuns_cons_word cs hw]
        exact List.mem_cons_of_mem _ hmem
      · rw [maximalWordRuns_cons_nonword cs hw]
        rw [dollarTokens] at hr
        by_cases hc : (c == '$') = true
        · rw [if_pos hc] at hr
          by_cases hm :
              (decide (1 ≤ (cs.takeWhile isUpperAZ).length) &&
                decide ((cs.takeWhile isUpperAZ).length ≤ 5) &&
                boundaryOk (cs.dropWhile isUpperAZ)) = true
          · rw [if_pos hm] at hr
            simp only [Bool.and_eq_true, decide_eq_true_eq] at hm
            rcases List.mem_cons.mp hr with hr | hr
            · subst hr
              obtain ⟨htake, hdrop⟩ := takeWhile_word_eq_upper cs hm.2
              match hcs : cs, hm with
              | c' :: cs', hm =>
                have hu : isUpperAZ c' = true := by
                  by_contra hu
                  rw [List.takeWhile_cons_of_neg (by simpa using hu)] at hm
                  simp at hm
                have hw' : isWordChar c' = true := isWordChar_of_isUpperAZ hu
                rw [maximalWordRuns_cons_word cs' hw']
                refine List.mem_cons.mpr (Or.inl ?_)
                have h1 : c' :: cs'.takeWhile isWordChar =
                    (c' :: cs').takeWhile isWordChar := by
                  rw [List.takeWhile_cons_of_pos hw']
                rw [h1, htake, List.takeWhile_cons_of_pos hu]
            · exact ih cs hs r hr
          · rw [if_neg hm] at hr; exact ih cs hs r hr
        · rw [if_neg hc] at hr; exact ih cs hs r hr

/-!
Lemmas connecting the two token scanners, lifted to strings.
-/

theorem mem_tickerTokens_shape {s r : List Char} (hr : r ∈ tickerTokens s) :
    r.all isUpperAZ = true ∧ 1 ≤ r.length ∧ r.length ≤ 5 := by
  have h := (List.mem_filter.mp hr).2
  simp only [Bool.and_eq_true, decide_eq_true_eq] at h
  exact ⟨h.1.1, h.1.2, h.2⟩

theorem dollarTokens_subset_tickerTokens {s r : List Char}
    (hr : r ∈ dollarTokens s) : r ∈ tickerTokens s := by
  have hshape := dollarTokens_shape s r hr
  have hrun := dollarTokens_subset_runs s.length s le_rfl r hr
  exact List.mem_filter.mpr
    ⟨hrun, by simp [hshape.1, hshape.2.1, hshape.2.2]⟩

theorem isDigit_eq_false_of_isUpperAZ {c : Char} (h : isUpperAZ c = true) :
    c.isDigit = false := by
  simp only [isUpperAZ, Bool.and_eq_true, decide_eq_true_eq] at h
  have h65 : ('A' : Char).val ≤ c.val := h.1
  by_contra hd
  rw [Bool.not_eq_false] at hd
  simp only [Char.isDigit, Bool.and_eq_true, decide_eq_true_eq] at hd
  exact absurd (UInt32.le_trans h65 hd.2) (by decide)

theorem tickerStrings_shape {text : String} {t : String}
    (h : t ∈ tickerStrings text) :
    1 ≤ t.length ∧ t.length ≤ 5 ∧ t.data.all isUpperAZ = true := by
  obtain ⟨r, hr, hrt⟩ := List.mem_map.mp h
  have hshape := mem_tickerTokens_shape hr
  subst hrt
  exact ⟨hshape.2.1, hshape.2.2, hshape.1⟩

theorem dollarStrings_subset_tickerStrings {text : String} {t : String}
    (h : t ∈ dollarStrings text) : t ∈ tickerStrings text := by
  obtain ⟨r, hr, hrt⟩ := List.mem_map.mp h
  exact List.mem_map.mpr ⟨r, dollarTokens_subset_tickerTokens hr, hrt⟩

theorem pyIsdigit_eq_false_of_upper {t : String}
    (h1 : t.data.all isUpperAZ = true) (h2 : 1 ≤ t.length) :
    pyIsdigit t = false := by
  match ht : t.data, h1 with
  | c :: rest, h1 =>
    simp only [List.all_cons, Bool.and_eq_true] at h1
    simp only [pyIsdigit, ht, Bool.and_eq_false_iff]
    exact Or.inr (by simp [isDigit_eq_false_of_isUpperAZ h1.1])
  | [], _ =>
    exact absurd h2 (by simp [String.length, ht])

theorem tickerStrings_empty : tickerStrings "" = [] := rfl

/-- Full characterization of membership in the production extraction result:
a token is kept exactly when ticker_pattern matched it and it is whitelisted
or dollar-prefixed somewhere in the same text with length at least 2.  The
length-5 and non-numeric side conditions of the source are subsumed by the
shape of ticker_pattern matches. -/
theorem mem_extract_tickers_iff (valid : Finset String) (text t : String) :
    t ∈ extract_tickers valid text ↔
      t ∈ tickerStrings text ∧
        (t ∈ valid ∨ (t ∈ dollarStrings text ∧ 2 ≤ t.length)) := by
  unfold extract_tickers
  by_cases htext : text = ""
  · subst htext
    rw [if_pos rfl]
    constructor
    · intro h; exact absurd h (Finset.not_mem_empty t)
    · rintro ⟨h, -⟩; rw [tickerStrings_empty] at h; exact absurd h (by simp)
  · rw [if_neg htext, List.mem_toFinset, List.mem_filter]
    constructor
    · rintro ⟨hmem, hcond⟩
      simp only [Bool.and_eq_true, Bool.or_eq_true, decide_eq_true_eq]
        at hcond
      exact ⟨hmem, hcond.2.imp id (fun h => ⟨h.1, h.2⟩)⟩
    · rintro ⟨hmem, hval⟩
      have hshape := tickerStrings_shape hmem
      refine ⟨hmem, ?_⟩
      simp only [Bool.and_eq_true, Bool.or_eq_true, decide_eq_true_eq,
        Bool.not_eq_true', Bool.or_eq_false_iff, decide_eq_false_iff_not,
        Nat.not_lt]
      exact ⟨⟨hshape.2.1, pyIsdigit_eq_false_of_upper hshape.2.2 hshape.1⟩,
        hval.imp id (fun h => ⟨h.1, h.2⟩)⟩

/-- C4: Under the whitelist policy of RedditStockCrawler.extract_tickers, a
candidate token that is not in the whitelist is accepted if and only if it
occurs dollar-prefixed in the text and has length at least 2; in particular a
non-whitelisted token with no dollar-prefixed occurrence is never accepted. -/
theorem extract_tickers_nonwhitelisted_iff (valid : Finset String)
    (text t : String) (h : t ∉ valid) :
    t ∈ extract_tickers valid text ↔
      t ∈ dollarStrings text ∧ 2 ≤ t.length := by
  rw [mem_extract_tickers_iff]
  constructor
  · rintro ⟨-, hval | hd⟩
    · exact absurd hval h
    · exact hd
  · intro hd
    exact ⟨dollarStrings_subset_tickerStrings hd.1, Or.inr hd⟩

theorem extract_tickers_nonwhitelisted_iff_witness :
    ("XYZ" ∉ ({"AAPL"} : Finset String)) ∧
      ("XYZ" ∈ extract_tickers {"AAPL"} "hello $XYZ" ↔
        "XYZ" ∈ dollarStrings "hello $XYZ" ∧ 2 ≤ ("XYZ" : String).length) :=
  ⟨by decide,
    extract_tickers_nonwhitelisted_iff {"AAPL"} "hello $XYZ" "XYZ" (by decide)⟩

/-- C9: Every candidate the extraction pattern produces is a run of 1 to 5
uppercase letters; moreover, a text whose maximal word runs all have length 6
or more yields no candidate at all. -/
theorem tickerTokens_length_le_five :
    (∀ (text : String) (t : String), t ∈ tickerStrings text →
      1 ≤ t.length ∧ t.length ≤ 5 ∧ t.data.all isUpperAZ = true) ∧
    (∀ s : List Char, (∀ r ∈ maximalWordRuns s, 6 ≤ r.length) →
      tickerTokens s = []) := by
  constructor
  · exact fun _ _ h => tickerStrings_shape h
  · intro s hs
    rw [tickerTokens, List.filter_eq_nil_iff]
    intro r hr
    have h6 := hs r hr
    simp only [Bool.and_eq_true, decide_eq_true_eq, not_and]
    intro _ _
    omega

theorem tickerTokens_length_le_five_witness :
    (1 ≤ ("GME" : String).length ∧ ("GME" : String).length ≤ 5 ∧
      ("GME" : String).data.all isUpperAZ = true) ∧
      tickerTokens ("ABCDEFG".data) = [] :=
  ⟨tickerTokens_length_le_five.1 "buy GME now" "GME" (by decide),
    tickerTokens_length_le_five.2 ("ABCDEFG".data) (by decide)⟩

/-- C10: The dollar-prefix leniency is per text, not per occurrence: a
non-whitelisted token of length at least 2 is accepted as soon as any
occurrence in the text carries the dollar sigil, even if other occurrences
are bare.  Concretely, the bare XYZ is accepted in a text whose other XYZ
occurrence is dollar-prefixed, while the same text without the sigil yields
nothing. -/
theorem extract_tickers_sigil_per_text :
    (∀ (valid : Finset String) (text t : String), t ∉ valid →
      t ∈ dollarStrings text → 2 ≤ t.length →
      t ∈ extract_tickers valid text) ∧
    extract_tickers ∅ "Buy $XYZ then XYZ again" = {"XYZ"} ∧
    extract_tickers ∅ "Buy XYZ then XYZ again" = ∅ := by
  refine ⟨fun valid text t hval hd hlen => ?_, by decide, by decide⟩
  exact (mem_extract_tickers_iff valid text t).mpr
    ⟨dollarStrings_subset_tickerStrings hd, Or.inr ⟨hd, hlen⟩⟩

theorem extract_tickers_sigil_per_text_witness :
    "XYZ" ∈ extract_tickers ∅ "Buy $XYZ then XYZ again" :=
  extract_tickers_sigil_per_text.1 ∅ "Buy $XYZ then XYZ again" "XYZ"
    (by decide) (by decide) (by decide)

/-!
Lemmas about the Counter model.
-/

theorem counterGet_counterIncr (c : List (String × Nat)) (k : String)
    (v : Nat) (k' : String) :
    counterGet (counterIncr c k v) k' =
      counterGet c k' + if k = k' then v else 0 := by
  induction c with
  | nil =>
    simp only [counterIncr, counterGet]
    by_cases h : k = k' <;> simp [h]
  | cons kv rest ih =>
    obtain ⟨k₀, v₀⟩ := kv
    by_cases h0 : k₀ = k
    · subst h0
      simp only [counterIncr, if_pos rfl, counterGet]
      by_cases h1 : k₀ = k' <;> simp [h1]
    · simp only [counterIncr, if_neg h0, counterGet]
      by_cases h1 : k₀ = k'
      · have hkk : ¬ k = k' := fun h => h0 (h1.trans h.symm)
        simp [h1, hkk]
      · simp [h1, ih]

theorem counterGet_foldl_incr_one (L : List String) :
    ∀ (c : List (String × Nat)) (t : String),
    counterGet (L.foldl (fun a k => counterIncr a k 1) c) t =
      counterGet c t + L.count t := by
  induction L with
  | nil => intro c t; simp
  | cons k L ih =>
    intro c t
    rw [List.foldl_cons, ih, counterGet_counterIncr, List.count_cons]
    by_cases h : k = t <;> simp [h, beq_iff_eq] <;> omega

theorem counterGet_eq_zero_of_not_mem_keys {l : List (String × Nat)}
    {k : String} (h : k ∉ l.map Prod.fst) : counterGet l k = 0 := by
  induction l with
  | nil => rfl
  | cons kv rest ih =>
    simp only [List.map_cons, List.mem_cons, not_or] at h
    obtain ⟨k₀, v₀⟩ := kv
    simp only [counterGet]
    rw [if_neg (fun he => h.1 he.symm)]
    exact ih h.2

theorem counterGet_counterUpdate (b : List (String × Nat)) :
    ∀ (a : List (String × Nat)) (k : String), (b.map Prod.fst).Nodup →
    counterGet (counterUpdate a b) k = counterGet a k + counterGet b k := by
  induction b with
  | nil => intro a k _; simp [counterUpdate, counterGet]
  | cons kv b' ih =>
    intro a k hnodup
    simp only [List.map_cons, List.nodup_cons] at hnodup
    obtain ⟨k₁, v₁⟩ := kv
    have hstep : counterUpdate a ((k₁, v₁) :: b') =
        counterUpdate (counterIncr a k₁ v₁) b' := rfl
    rw [hstep, ih _ k hnodup.2, counterGet_counterIncr]
    simp only [counterGet]
    by_cases h : k₁ = k
    · subst h
      rw [counterGet_eq_zero_of_not_mem_keys hnodup.1]
      simp
    · simp [h]

/-!
Lemmas about the sorted iteration of finite string sets.
-/

theorem finsetElems_spec (s : Finset String) :
    (∀ t, t ∈ finsetElems s ↔ t ∈ s) ∧ (finsetElems s).Nodup := by
  obtain ⟨l, hl⟩ := Quotient.exists_rep s.val
  have hsort : finsetElems s = l.insertionSort (· ≤ ·) := by
    unfold finsetElems
    rw [← hl]
    rfl
  have hperm : List.Perm (l.insertionSort (· ≤ ·)) l :=
    List.perm_insertionSort _ _
  constructor
  · intro t
    rw [hsort, hperm.mem_iff, Finset.mem_def, ← hl]
    exact Iff.rfl
  · rw [hsort, hperm.nodup_iff]
    have hnd := s.nodup
    rw [← hl] at hnd
    exact hnd

theorem mem_finsetElems {s : Finset String} {t : String} :
    t ∈ finsetElems s ↔ t ∈ s := (finsetElems_spec s).1 t

theorem nodup_finsetElems (s : Finset String) : (finsetElems s).Nodup :=
  (finsetElems_spec s).2

/-- C2 counterexample: a symbol occurring in both the title and the selftext
of one post adds 1 to the post's count, not 2, because the two ticker sets
are merged with set update before counting (lines 161-165). -/
theorem processPost_both_counterexample :
    counterGet (processPost {"GME"} [] "$GME" "$GME to the moon" []) "GME"
        = 1 ∧
      counterGet (processPost {"GME"} [] "$GME" "$GME to the moon" [])
        "GME" ≠ 2 := by decide

/-- C2 amended: a symbol extracted from both the title and the selftext of a
post contributes exactly 1 to that post's count (title and selftext sets are
unioned before counting); comments are separate text items. -/
theorem processPost_title_selftext_count_once (valid : Finset String)
    (c : List (String × Nat)) (title selftext t : String)
    (h1 : t ∈ extract_tickers valid title)
    (h2 : t ∈ extract_tickers valid selftext) :
    counterGet (processPost valid c title selftext []) t =
      counterGet c t + 1 := by
  unfold processPost
  simp only [List.take_nil, List.foldl_nil]
  rw [counterGet_foldl_incr_one]
  have hmem : t ∈ finsetElems
      (extract_tickers valid title ∪ extract_tickers valid selftext) :=
    mem_finsetElems.mpr (Finset.mem_union_left _ h1)
  rw [List.count_eq_one_of_mem (nodup_finsetElems _) hmem]

theorem processPost_title_selftext_count_once_witness :
    counterGet (processPost {"GME"} [] "GME up" "GME down" []) "GME" =
      counterGet [] "GME" + 1 :=
  processPost_title_selftext_count_once {"GME"} [] "GME up" "GME down" "GME"
    (by decide) (by decide)

/-- C3 counterexample: with the symbols inserted in the order TSLA, AAPL,
GME, most_common with N = 2 returns TSLA first: ties keep insertion order,
so the output is not [(AAPL, 5), (TSLA, 5)] independently of insertion
order. -/
theorem most_common_insertion_order_counterexample :
    most_common
        (counterIncr (counterIncr (counterIncr [] "TSLA" 5) "AAPL" 5)
          "GME" 3) 2 ≠ [("AAPL", 5), ("TSLA", 5)] ∧
      most_common
        (counterIncr (counterIncr (counterIncr [] "TSLA" 5) "AAPL" 5)
          "GME" 3) 2 = [("TSLA", 5), ("AAPL", 5)] := by decide

/-- C3 amended: the ranking uses a stable descending sort on counts, so equal
counts keep the counter's insertion order; for the counts AAPL 5, TSLA 5,
GME 3 and N = 2 the output is [(AAPL, 5), (TSLA, 5)] when AAPL was inserted
first and [(TSLA, 5), (AAPL, 5)] when TSLA was inserted first. -/
theorem most_common_tie_follows_insertion_order :
    most_common
        (counterIncr (counterIncr (counterIncr [] "AAPL" 5) "TSLA" 5)
          "GME" 3) 2 = [("AAPL", 5), ("TSLA", 5)] ∧
      most_common
        (counterIncr (counterIncr (counterIncr [] "TSLA" 5) "AAPL" 5)
          "GME" 3) 2 = [("TSLA", 5), ("AAPL", 5)] := by decide

/-- C5 counterexample: merging in the two orders gives the same totals but
not the same ranked sequence when counts tie, because ties keep insertion
order and the merge orders insert the keys differently. -/
theorem counterUpdate_ranking_counterexample :
    most_common (counterUpdate [("AAA", 1)] [("BBB", 1)]) 2 ≠
      most_common (counterUpdate [("BBB", 1)] [("AAA", 1)]) 2 := by decide

/-- C5 amended: merging Counters is commutative on totals: for mappings with
duplicate-free keys, every symbol's total after merging A then B equals its
total after merging B then A (the ranked sequence, however, may order tied
symbols differently depending on the merge order). -/
theorem counterUpdate_totals_comm (a b : List (String × Nat))
    (ha : (a.map Prod.fst).Nodup) (hb : (b.map Prod.fst).Nodup)
    (k : String) :
    counterGet (counterUpdate a b) k = counterGet (counterUpdate b a) k := by
  rw [counterGet_counterUpdate b a k hb, counterGet_counterUpdate a b k ha]
  omega

theorem counterUpdate_totals_comm_witness :
    counterGet (counterUpdate [("AAA", 1)] [("BBB", 2), ("AAA", 3)]) "AAA" =
      counterGet (counterUpdate [("BBB", 2), ("AAA", 3)] [("AAA", 1)])
        "AAA" :=
  counterUpdate_totals_comm [("AAA", 1)] [("BBB", 2), ("AAA", 3)]
    (by decide) (by decide) "AAA"

theorem length_insertDesc (x : String × Nat) :
    ∀ l : List (String × Nat), (insertDesc x l).length = l.length + 1 := by
  intro l
  induction l with
  | nil => rfl
  | cons y ys ih =>
    rw [insertDesc]
    by_cases h : y.2 > x.2
    · simp [h, ih]
    · simp [h]

theorem length_sortDesc :
    ∀ l : List (String × Nat), (sortDesc l).length = l.length := by
  intro l
  induction l with
  | nil => rfl
  | cons x xs ih => rw [sortDesc, length_insertDesc, ih, List.length_cons]

/-- C8 counterexample: requesting the top 0 and requesting a negative top
both silently return the empty list on a nonempty counter; neither fails with
a validation error. -/
theorem get_top_stocks_no_failfast_counterexample :
    get_top_stocks [("AAPL", 5), ("GME", 3)] 0 = [] ∧
      get_top_stocks [("AAPL", 5), ("GME", 3)] (-1) = [] := by
  decide

/-- C8 amended: get_top_stocks performs no validation of the requested size:
for N = 0 and for every negative N it silently returns the empty ranking
(most_common delegates to heapq.nlargest, which yields the empty list for
every nonpositive N); no error is raised. -/
theorem get_top_stocks_no_validation (c : List (String × Nat)) (n : Int)
    (h : n ≤ 0) : get_top_stocks c n = [] := by
  show most_common c n = []
  unfold most_common
  by_cases h0 : n < 0
  · rw [if_pos h0]
  · rw [if_neg h0]
    have hn : n = 0 := le_antisymm h (not_lt.mp h0)
    subst hn
    rfl

theorem get_top_stocks_no_validation_witness :
    get_top_stocks [("AAPL", 5), ("GME", 3)] (-1) = [] :=
  get_top_stocks_no_validation [("AAPL", 5), ("GME", 3)] (-1) (by decide)

/-!
Lemmas about the SEC loader.
-/

theorem subset_secInsertEntry (acc : Finset String) (e : String) :
    acc ⊆ secInsertEntry acc e := by
  simp only [secInsertEntry]
  split_ifs
  all_goals first
    | exact Finset.Subset.refl _
    | exact Finset.subset_insert _ _
    | exact (Finset.subset_insert _ _).trans (Finset.subset_insert _ _)

theorem subset_foldl_secInsert (l : List String) :
    ∀ acc : Finset String, acc ⊆ l.foldl secInsertEntry acc := by
  induction l with
  | nil => intro acc; exact Finset.Subset.refl acc
  | cons e l ih =>
    intro acc
    rw [List.foldl_cons]
    exact (subset_secInsertEntry acc e).trans (ih _)

theorem mem_secInsertEntry_of_sep (acc : Finset String) {e : String}
    (hsep : '-' ∈ pyUpper e ∨ '.' ∈ pyUpper e) :
    String.mk (pyUpper e) ∈ secInsertEntry acc e ∧
      (secBase (pyUpper e) ≠ [] → (secBase (pyUpper e)).length ≤ 5 →
        String.mk (secBase (pyUpper e)) ∈ secInsertEntry acc e) := by
  have hne : ¬ pyUpper e = [] := by
    rcases hsep with h | h <;> exact List.ne_nil_of_mem h
  simp only [secInsertEntry]
  rw [if_neg hne, if_pos hsep]
  refine ⟨Finset.mem_insert_self _ _, fun hb hl => ?_⟩
  rw [if_pos ⟨hb, hl⟩]
  exact Finset.mem_insert_of_mem (Finset.mem_insert_self _ _)

/-- C6 counterexample: the entry "-B" contains a separator and its base form
(the prefix before the first separator) has length at most 5, yet that base
form is not in the loaded set: the code adds the base form only when it is
nonempty (line 72), so the claim fails for entries that start with a
separator. -/
theorem load_tickers_base_missing_counterexample :
    ('-' ∈ pyUpper "-B" ∨ '.' ∈ pyUpper "-B") ∧
      (secBase (pyUpper "-B")).length ≤ 5 ∧
      String.mk (secBase (pyUpper "-B")) ∉ load_tickers_from ["-B"] ∧
      "-B" ∈ load_tickers_from ["-B"] := by decide

/-- C6 amended: for every entry whose upper-cased form contains a dash or dot
separator, the loader keeps the full upper-cased form, and also keeps the base
form (prefix before the first separator) whenever that base form is nonempty
and has length at most 5. -/
theorem load_tickers_from_normalization (entries : List String) (e : String)
    (he : e ∈ entries) (hsep : '-' ∈ pyUpper e ∨ '.' ∈ pyUpper e) :
    String.mk (pyUpper e) ∈ load_tickers_from entries ∧
      (secBase (pyUpper e) ≠ [] → (secBase (pyUpper e)).length ≤ 5 →
        String.mk (secBase (pyUpper e)) ∈ load_tickers_from entries) := by
  obtain ⟨l1, l2, rfl⟩ := List.append_of_mem he
  unfold load_tickers_from
  rw [List.foldl_append, List.foldl_cons]
  have hstep := mem_secInsertEntry_of_sep (l1.foldl secInsertEntry ∅) hsep
  exact ⟨Finset.mem_of_subset (subset_foldl_secInsert l2 _) hstep.1,
    fun hb hl =>
      Finset.mem_of_subset (subset_foldl_secInsert l2 _) (hstep.2 hb hl)⟩

theorem load_tickers_from_normalization_witness :
    String.mk (pyUpper "BRK-B") ∈ load_tickers_from ["BRK-B"] ∧
      (secBase (pyUpper "BRK-B") ≠ [] →
        (secBase (pyUpper "BRK-B")).length ≤ 5 →
        String.mk (secBase (pyUpper "BRK-B")) ∈ load_tickers_from ["BRK-B"]) :=
  load_tickers_from_normalization ["BRK-B"] "BRK-B" (by decide) (by decide)

/-- C7: whenever the authoritative data cannot be loaded, because the local
file is unreadable or malformed, or because it is absent and the web fetch
fails too, the loader returns the fixed built-in fallback set; it is a total
function, so no error reaches the caller. -/
theorem load_sec_tickers_fallback (loc : LocalData) (web : WebData)
    (h : loc = LocalData.unreadable ∨
      (loc = LocalData.notFound ∧ web = WebData.failed)) :
    load_sec_tickers loc web = fallback_tickers := by
  rcases h with h | ⟨h1, h2⟩
  · subst h; rfl
  · subst h1; subst h2; rfl

theorem load_sec_tickers_fallback_witness :
    load_sec_tickers LocalData.unreadable WebData.failed = fallback_tickers :=
  load_sec_tickers_fallback LocalData.unreadable WebData.failed (Or.inl rfl)

/-- C1: end-to-end scenario on the text about TSLA, GME, BB and IPO: with the
whitelist TSLA, GME, BB, the production extraction validates exactly TSLA,
GME and BB, rejecting IPO, AND, TO and THE; the demo (exclusion-list) variant
also rejects IPO, AND, TO and THE, which are all in its exclusion set. -/
theorem end_to_end_validated_set :
    extract_tickers {"TSLA", "GME", "BB"}
        "TSLA to the moon! Anyone else buying $GME? Also $BB and IPO rumors."
        = {"TSLA", "GME", "BB"} ∧
      "IPO" ∉ demo_extract_tickers
        "TSLA to the moon! Anyone else buying $GME? Also $BB and IPO rumors." ∧
      "AND" ∉ demo_extract_tickers
        "TSLA to the moon! Anyone else buying $GME? Also $BB and IPO rumors." ∧
      "TO" ∉ demo_extract_tickers
        "TSLA to the moon! Anyone else buying $GME? Also $BB and IPO rumors." ∧
      "THE" ∉ demo_extract_tickers
        "TSLA to the moon! Anyone else buying $GME? Also $BB and IPO rumors." :=
  by decide
